import Mathlib

/-!
Verification of the collection-and-filtering pipeline of the good-news
aggregator (src/good_news_agent.py).

The pure decision logic of the program (normalizing, scoring, threshold
filtering, capping, deduplication, source enumeration) is embedded as
executable Lean definitions, translated line by line from the Python source.
External collaborators with no decision logic of their own are modeled as
function parameters:

* the network-and-XML-parse boundary of fetch_google_news_rss (requests +
  BeautifulSoup) is a parameter of type Network, where none models any
  exception raised inside the try block and some gives the parsed item
  elements, each with optional title, description, link, pubDate child
  nodes exactly as read on lines 179-184 of the source;
* the GoogleTranslator provider is a parameter of type Translator, where
  none models any exception raised by translate;
* the VADER SentimentIntensityAnalyzer is a parameter of type Analyzer,
  where none models any exception of polarity_scores and some gives the
  returned score dictionary as an association list;
* the hashlib.sha1 hexdigest used for the deduplication key is a parameter
  of type String to String.

Machine reals (the sentiment scores, always compared with the plain order)
are modeled as rationals.
-/

set_option maxRecDepth 20000

namespace GNA

/-- One parsed feed entry as produced by fetch_google_news_rss
(source lines 184): title, description, link, pubDate, lang. -/
structure RawItem where
  title : String
  description : String
  link : String
  pubDate : String
  lang : String
deriving DecidableEq

/-- One item element of the parsed XML, before the none-to-empty defaulting
of source lines 180-183: each child node may be absent. -/
structure XmlItem where
  title : Option String
  description : Option String
  link : Option String
  pubDate : Option String
deriving DecidableEq

/-- One collected article dictionary as built on source lines 322-331. -/
structure Article where
  title : String
  description : String
  summary : String
  link : String
  pubDate : String
  score : ℚ
  title_he : String
  summary_he : String
deriving DecidableEq

/-- The CONFIG dictionary, source lines 34-98.  queries keeps the insertion
order of the Python dict (topic, list of query strings). -/
structure Config where
  queries : List (String × List String)
  languages : List String
  max_articles : Nat
  min_compound : ℚ
  rss_timeout : Nat
  summary_max_chars : Nat

/-- The configured values of CONFIG, source lines 34-98. -/
def CONFIG : Config :=
  { queries :=
      [ ("animals",
          [ "rare animal birth", "rare animal discovery", "baby animals zoo",
            "unique animal behavior", "animal friendship unusual",
            "rare species sighting", "new species discovered" ]),
        ("tourism",
          [ "unique tourist destination", "new hotel opened",
            "special boutique hotel", "unique guesthouse",
            "new hiking trail opened", "rare village tourism",
            "new museum opens", "unique travel experience",
            "world heritage restored" ]),
        ("nature",
          [ "rare natural phenomenon", "unique landscape discovered",
            "rare plant discovered", "new national park area",
            "beautiful natural site", "unique geological formation",
            "stunning natural view" ]),
        ("science",
          [ "positive scientific discovery", "new medical breakthrough hope",
            "technology improves life", "new space discovery exciting",
            "archaeological discovery rare" ]),
        ("culture",
          [ "ancient artifact discovered", "new museum opens",
            "unique art exhibition", "historic site restored",
            "rare cultural discovery" ]),
        ("inspiration",
          [ "heartwarming story", "community success story",
            "inspiring achievement", "uplifting news", "good news story" ]) ],
    languages := ["en", "es", "fr", "de", "pt", "ar"],
    max_articles := 25,
    min_compound := 0.05,
    rss_timeout := 10,
    summary_max_chars := 300 }

/-- The network-and-parse boundary of fetch_google_news_rss: given the query
and the language it either yields the parsed item elements or fails (none
models any exception of the request, the HTTP status check, or the parse). -/
abbrev Network := String → String → Option (List XmlItem)

/-- The GoogleTranslator boundary: given the text and the target language it
either yields the translation or fails (none models any exception). -/
abbrev Translator := String → String → Option String

/-- The VADER analyzer boundary: given the text it either yields the
polarity_scores dictionary or fails (none models any exception). -/
abbrev Analyzer := String → Option (List (String × ℚ))

/-- Python string slicing s[:n]: the first n characters (code points). -/
def strTake (s : String) (n : Nat) : String := String.mk (s.data.take n)

/-- The whitespace class of the regular expression in clean_html_summary
(and of str.strip), restricted to its ASCII members. -/
def isSpaceChar (c : Char) : Bool :=
  c = ' ' || c = '\t' || c = '\n' || c = '\r' || c = '\x0b' || c = '\x0c'

/-- Markup removal of BeautifulSoup get_text with a one-space separator:
every tag span from an opening angle bracket to the next closing one is
replaced by a single space.  The flag records being inside a tag. -/
def stripTagsAux : Bool → List Char → List Char
  | _, [] => []
  | false, c :: rest =>
      if c = '<' then ' ' :: stripTagsAux true rest else c :: stripTagsAux false rest
  | true, c :: rest =>
      if c = '>' then stripTagsAux false rest else stripTagsAux true rest

/-- Splitting a character list into its maximal whitespace-free runs; acc
holds the current run reversed.  Together with joinWords this realizes the
whitespace collapse re.sub of source line 117 followed by str.strip. -/
def wordsAux : List Char → List Char → List (List Char)
  | acc, [] => if acc = [] then [] else [acc.reverse]
  | acc, c :: rest =>
      if isSpaceChar c then
        (if acc = [] then wordsAux [] rest else acc.reverse :: wordsAux [] rest)
      else wordsAux (c :: acc) rest

/-- Joining words with single spaces, no leading or trailing space. -/
def joinWords : List (List Char) → List Char
  | [] => []
  | [w] => w
  | w :: ws => w ++ ' ' :: joinWords ws

/-- clean_html_summary, source lines 112-118: empty input gives the empty
string, otherwise tags are stripped and whitespace runs are collapsed to
single spaces with the ends trimmed. -/
def clean_html_summary (html_text : String) : String :=
  if html_text = "" then ""
  else String.mk (joinWords (wordsAux [] (stripTagsAux false html_text.data)))

/-- translate_text, source lines 121-128: empty text gives the empty string;
a provider failure gives the original text back. -/
def translate_text (tr : Translator) (text : String) (target : String) : String :=
  if text = "" then ""
  else
    match tr text target with
    | some t => t
    | none => text

/-- translate_to_en_safe, source lines 131-137. -/
def translate_to_en_safe (tr : Translator) (text : String) : String :=
  if text = "" then ""
  else
    match tr text "en" with
    | some t => t
    | none => text

/-- score_sentiment, source lines 140-148: empty text scores 0, an analyzer
failure scores 0, otherwise the compound entry of the dictionary with
default 0. -/
def score_sentiment (an : Analyzer) (text : String) : ℚ :=
  if text = "" then 0
  else
    match an text with
    | some scores => (List.lookup "compound" scores).getD 0
    | none => 0

/-- The string hashed for the deduplication key of an article, source
line 160: link concatenated with title. -/
def keySrc (a : Article) : String := a.link ++ a.title

/-- The loop of dedupe_articles, source lines 157-166, with seen the set of
already seen keys and h the hashlib.sha1 hexdigest boundary. -/
def dedupeGo (h : String → String) (seen : List String) : List Article → List Article
  | [] => []
  | a :: rest =>
      if h (keySrc a) ∈ seen then dedupeGo h seen rest
      else a :: dedupeGo h (h (keySrc a) :: seen) rest

/-- dedupe_articles, source lines 156-166. -/
def dedupe_articles (h : String → String) (articles : List Article) : List Article :=
  dedupeGo h [] articles

/-- The defaulting of absent XML child nodes to empty strings, source
lines 180-184. -/
def parseXmlItem (lang : String) (x : XmlItem) : RawItem :=
  { title := x.title.getD "",
    description := x.description.getD "",
    link := x.link.getD "",
    pubDate := x.pubDate.getD "",
    lang := lang }

/-- fetch_google_news_rss, source lines 170-188: on any failure of the
request or the parse the source contributes the empty list, otherwise the
parsed items with absent fields defaulted to empty strings. -/
def fetch_google_news_rss (net : Network) (query : String) (lang : String) : List RawItem :=
  match net query lang with
  | none => []
  | some xs => xs.map (parseXmlItem lang)

/-- The body of the innermost loop of run, source lines 303-331: none means
the item is skipped (a continue), some gives the appended dictionary. -/
def processItem (cfg : Config) (tr : Translator) (an : Analyzer) (it : RawItem) : Option Article :=
  let title := it.title
  let desc := clean_html_summary it.description
  let link := it.link
  let pub := it.pubDate
  if title = "" ∧ desc = "" then none
  else
    let text_for_sentiment := strTake (title ++ " " ++ desc) 2000
    let en_text := translate_to_en_safe tr text_for_sentiment
    let score := score_sentiment an en_text
    if score < cfg.min_compound then none
    else
      let title_he := translate_text tr title "he"
      let short_desc := strTake desc cfg.summary_max_chars
      let summary_he := if short_desc = "" then "" else translate_text tr short_desc "he"
      some { title := title, description := desc, summary := short_desc,
             link := link, pubDate := pub, score := score,
             title_he := title_he, summary_he := summary_he }

/-- The sentiment score computed for an item inside the loop body
(source lines 312-314). -/
def itemScore (_cfg : Config) (tr : Translator) (an : Analyzer) (it : RawItem) : ℚ :=
  score_sentiment an (translate_to_en_safe tr (strTake (it.title ++ " " ++ clean_html_summary it.description) 2000))

/-- The innermost loop of run over the items of one fetched source, source
lines 303-334: each kept item is appended and the loop breaks the moment
the collected length reaches max_articles. -/
def processItems (cfg : Config) (tr : Translator) (an : Analyzer) :
    List Article → List RawItem → List Article
  | coll, [] => coll
  | coll, it :: rest =>
      match processItem cfg tr an it with
      | none => processItems cfg tr an coll rest
      | some a =>
          let coll' := coll ++ [a]
          if cfg.max_articles ≤ coll'.length then coll'
          else processItems cfg tr an coll' rest

/-- The enumeration order of the sources, source lines 294-298: topics in
dictionary order, the queries of each topic in list order, and for each
query every configured language. -/
def sourcesOf (cfg : Config) : List (String × String) :=
  cfg.queries.flatMap (fun tq => tq.2.flatMap (fun q => cfg.languages.map (fun l => (q, l))))

/-- The source loops of run, source lines 294-340: each source is fetched
and processed in turn, and the cascade of break statements on lines 333-340
stops the enumeration as soon as the collected length reaches
max_articles. -/
def collectFromSources (cfg : Config) (net : Network) (tr : Translator) (an : Analyzer) :
    List Article → List (String × String) → List Article
  | coll, [] => coll
  | coll, s :: rest =>
      let coll' := processItems cfg tr an coll (fetch_google_news_rss net s.1 s.2)
      if cfg.max_articles ≤ coll'.length then coll'
      else collectFromSources cfg net tr an coll' rest

/-- collectFromSources instrumented with the list of sources actually
fetched, in order, for stating the short-circuit behavior. -/
def collectTrace (cfg : Config) (net : Network) (tr : Translator) (an : Analyzer) :
    List Article → List (String × String) → List Article × List (String × String)
  | coll, [] => (coll, [])
  | coll, s :: rest =>
      let coll' := processItems cfg tr an coll (fetch_google_news_rss net s.1 s.2)
      if cfg.max_articles ≤ coll'.length then (coll', [s])
      else
        let r := collectTrace cfg net tr an coll' rest
        (r.1, s :: r.2)

/-- The collected list of one run right before deduplication, source
lines 292-340. -/
def preDedup (cfg : Config) (net : Network) (tr : Translator) (an : Analyzer) : List Article :=
  collectFromSources cfg net tr an [] (sourcesOf cfg)

/-- The final CollectedSet of run, source line 343: the collected list of
the capped enumeration, deduplicated. -/
def run (cfg : Config) (net : Network) (tr : Translator) (an : Analyzer)
    (h : String → String) : List Article :=
  dedupe_articles h (preDedup cfg net tr an)

/-- The items of one source that pass the per-item filters, uncapped. -/
def passingOf (cfg : Config) (net : Network) (tr : Translator) (an : Analyzer)
    (s : String × String) : List Article :=
  (fetch_google_news_rss net s.1 s.2).filterMap (processItem cfg tr an)

/-- All passing items of a run in source-enumeration order, uncapped: the
reference stream against which the cap is stated. -/
def allPassing (cfg : Config) (net : Network) (tr : Translator) (an : Analyzer) : List Article :=
  (sourcesOf cfg).flatMap (passingOf cfg net tr an)

/-- A small configuration for concrete instances: one topic, one query, one
language, a cap of one article and the configured threshold of one
twentieth. -/
def cfgW : Config :=
  { queries := [("t", ["q"])], languages := ["en"], max_articles := 1,
    min_compound := mkRat 1 20, rss_timeout := 10, summary_max_chars := 300 }

/-- cfgW with a cap of two articles. -/
def cfgC : Config :=
  { cfgW with max_articles := 2 }

/-- A translator boundary that always fails. -/
def trFail : Translator := fun _ _ => none

/-- An analyzer boundary that always yields a compound score of one. -/
def anOne : Analyzer := fun _ => some [("compound", 1)]

/-- A network boundary that always fails. -/
def netFail : Network := fun _ _ => none

/-- A concrete parsed item with a title and a link only. -/
def xmlA : XmlItem := { title := some "Rare animal born", description := none,
                        link := some "LA", pubDate := none }

/-- A second concrete parsed item, distinct from xmlA. -/
def xmlB : XmlItem := { title := some "New park opens", description := none,
                        link := some "LB", pubDate := none }

/-- A network boundary returning xmlA twice and then xmlB, for every
source: the first two passing items are duplicates. -/
def netDup : Network := fun _ _ => some [xmlA, xmlA, xmlB]

/-- A network boundary returning xmlA and then xmlB. -/
def netAB : Network := fun _ _ => some [xmlA, xmlB]

/-- The article the pipeline builds from xmlA under trFail and anOne. -/
def artA : Article :=
  { title := "Rare animal born", description := "", summary := "", link := "LA",
    pubDate := "", score := 1, title_he := "Rare animal born", summary_he := "" }

/-- The article the pipeline builds from xmlB under trFail and anOne. -/
def artB : Article :=
  { title := "New park opens", description := "", summary := "", link := "LB",
    pubDate := "", score := 1, title_he := "New park opens", summary_he := "" }

/-- The identity function on strings, used as a concrete stand-in for the
hash boundary in closed instances (run and dedupe_articles take the hash as
a parameter). -/
def idHash : String → String := fun s => s

/-- An analyzer boundary that always fails. -/
def anNone : Analyzer := fun _ => none

/-- A raw item whose title and description are both empty. -/
def itEmpty : RawItem :=
  { title := "", description := "", link := "", pubDate := "", lang := "en" }

/-- artA with its title changed and its link kept: a change of the title
alone. -/
def artAt : Article :=
  { artA with title := "Another title" }

/-! Helper lemmas about the collection loop. -/

/-- Equality of strings follows from equality of their character lists. -/
theorem stringDataEq {s t : String} (hh : s.data = t.data) : s = t := by
  cases s
  cases t
  exact congrArg String.mk hh

/-- Unfolding the item loop at a skipped item. -/
theorem processItems_cons_none (cfg : Config) (tr : Translator) (an : Analyzer)
    (coll : List Article) (it : RawItem) (rest : List RawItem)
    (hpi : processItem cfg tr an it = none) :
    processItems cfg tr an coll (it :: rest) = processItems cfg tr an coll rest := by
  simp only [processItems, hpi]

/-- Unfolding the item loop at a kept item that reaches the cap: the break
of source line 334 fires. -/
theorem processItems_cons_cap (cfg : Config) (tr : Translator) (an : Analyzer)
    (coll : List Article) (it : RawItem) (rest : List RawItem) (a : Article)
    (hpi : processItem cfg tr an it = some a)
    (hc : cfg.max_articles ≤ (coll ++ [a]).length) :
    processItems cfg tr an coll (it :: rest) = coll ++ [a] := by
  simp only [processItems, hpi]
  rw [if_pos hc]

/-- Unfolding the item loop at a kept item below the cap. -/
theorem processItems_cons_lt (cfg : Config) (tr : Translator) (an : Analyzer)
    (coll : List Article) (it : RawItem) (rest : List RawItem) (a : Article)
    (hpi : processItem cfg tr an it = some a)
    (hc : ¬ cfg.max_articles ≤ (coll ++ [a]).length) :
    processItems cfg tr an coll (it :: rest) = processItems cfg tr an (coll ++ [a]) rest := by
  simp only [processItems, hpi]
  rw [if_neg hc]

/-- Unfolding the source loop at a source after which the cap is reached:
the breaks of source lines 335-340 fire and the enumeration stops. -/
theorem collect_cons_cap (cfg : Config) (net : Network) (tr : Translator) (an : Analyzer)
    (coll : List Article) (s : String × String) (rest : List (String × String))
    (hc : cfg.max_articles ≤ (processItems cfg tr an coll (fetch_google_news_rss net s.1 s.2)).length) :
    collectFromSources cfg net tr an coll (s :: rest) =
      processItems cfg tr an coll (fetch_google_news_rss net s.1 s.2) := by
  simp only [collectFromSources]
  rw [if_pos hc]

/-- Unfolding the source loop at a source after which the cap is not yet
reached. -/
theorem collect_cons_lt (cfg : Config) (net : Network) (tr : Translator) (an : Analyzer)
    (coll : List Article) (s : String × String) (rest : List (String × String))
    (hc : ¬ cfg.max_articles ≤ (processItems cfg tr an coll (fetch_google_news_rss net s.1 s.2)).length) :
    collectFromSources cfg net tr an coll (s :: rest) =
      collectFromSources cfg net tr an
        (processItems cfg tr an coll (fetch_google_news_rss net s.1 s.2)) rest := by
  simp only [collectFromSources]
  rw [if_neg hc]

/-- Unfolding the traced source loop when the cap is reached. -/
theorem collectTrace_cons_cap (cfg : Config) (net : Network) (tr : Translator) (an : Analyzer)
    (coll : List Article) (s : String × String) (rest : List (String × String))
    (hc : cfg.max_articles ≤ (processItems cfg tr an coll (fetch_google_news_rss net s.1 s.2)).length) :
    collectTrace cfg net tr an coll (s :: rest) =
      (processItems cfg tr an coll (fetch_google_news_rss net s.1 s.2), [s]) := by
  simp only [collectTrace]
  rw [if_pos hc]

/-- Unfolding the traced source loop below the cap. -/
theorem collectTrace_cons_lt (cfg : Config) (net : Network) (tr : Translator) (an : Analyzer)
    (coll : List Article) (s : String × String) (rest : List (String × String))
    (hc : ¬ cfg.max_articles ≤ (processItems cfg tr an coll (fetch_google_news_rss net s.1 s.2)).length) :
    collectTrace cfg net tr an coll (s :: rest) =
      ((collectTrace cfg net tr an
          (processItems cfg tr an coll (fetch_google_news_rss net s.1 s.2)) rest).1,
        s :: (collectTrace cfg net tr an
          (processItems cfg tr an coll (fetch_google_news_rss net s.1 s.2)) rest).2) := by
  simp only [collectTrace]
  rw [if_neg hc]

/-- The collected list only grows: the item loop appends and never removes. -/
theorem processItems_append (cfg : Config) (tr : Translator) (an : Analyzer)
    (items : List RawItem) :
    ∀ coll, ∃ t, processItems cfg tr an coll items = coll ++ t := by
  induction items with
  | nil => exact fun coll => ⟨[], by simp [processItems]⟩
  | cons it rest ih =>
    intro coll
    cases hpi : processItem cfg tr an it with
    | none =>
      obtain ⟨t, ht⟩ := ih coll
      exact ⟨t, by rw [processItems_cons_none _ _ _ _ _ _ hpi, ht]⟩
    | some a =>
      by_cases hc : cfg.max_articles ≤ (coll ++ [a]).length
      · exact ⟨[a], processItems_cons_cap _ _ _ _ _ _ _ hpi hc⟩
      · obtain ⟨t, ht⟩ := ih (coll ++ [a])
        refine ⟨a :: t, ?_⟩
        rw [processItems_cons_lt _ _ _ _ _ _ _ hpi hc, ht, List.append_assoc]
        try rfl

/-- Below the cap, the item loop appends exactly the passing items of the
source, truncated to the room left under max_articles. -/
theorem processItems_take (cfg : Config) (tr : Translator) (an : Analyzer)
    (items : List RawItem) :
    ∀ coll, coll.length < cfg.max_articles →
    processItems cfg tr an coll items =
      coll ++ (items.filterMap (processItem cfg tr an)).take (cfg.max_articles - coll.length) := by
  induction items with
  | nil => intro coll _; simp [processItems]
  | cons it rest ih =>
    intro coll hlt
    cases hpi : processItem cfg tr an it with
    | none =>
      rw [processItems_cons_none _ _ _ _ _ _ hpi, ih coll hlt, List.filterMap_cons, hpi]
    | some a =>
      rw [List.filterMap_cons, hpi]
      have hsub : cfg.max_articles - coll.length = (cfg.max_articles - coll.length - 1) + 1 := by
        omega
      rw [hsub, List.take_succ_cons]
      by_cases hc : cfg.max_articles ≤ (coll ++ [a]).length
      · have h1 : cfg.max_articles - coll.length - 1 = 0 := by
          simp only [List.length_append, List.length_cons, List.length_nil] at hc
          omega
        rw [processItems_cons_cap _ _ _ _ _ _ _ hpi hc, h1, List.take_zero]
        try rfl
      · have hlt' : (coll ++ [a]).length < cfg.max_articles := by
          omega
        have h2 : cfg.max_articles - (coll ++ [a]).length =
            cfg.max_articles - coll.length - 1 := by
          simp only [List.length_append, List.length_cons, List.length_nil]
          omega
        rw [processItems_cons_lt _ _ _ _ _ _ _ hpi hc, ih _ hlt', h2, List.append_assoc]
        rfl

/-- The collected list only grows across sources. -/
theorem collect_append (cfg : Config) (net : Network) (tr : Translator) (an : Analyzer)
    (ss : List (String × String)) :
    ∀ coll, ∃ t, collectFromSources cfg net tr an coll ss = coll ++ t := by
  induction ss with
  | nil => exact fun coll => ⟨[], by simp [collectFromSources]⟩
  | cons s rest ih =>
    intro coll
    obtain ⟨t1, ht1⟩ := processItems_append cfg tr an (fetch_google_news_rss net s.1 s.2) coll
    by_cases hc : cfg.max_articles ≤ (processItems cfg tr an coll (fetch_google_news_rss net s.1 s.2)).length
    · exact ⟨t1, by rw [collect_cons_cap _ _ _ _ _ _ _ hc, ht1]⟩
    · obtain ⟨t2, ht2⟩ := ih (processItems cfg tr an coll (fetch_google_news_rss net s.1 s.2))
      refine ⟨t1 ++ t2, ?_⟩
      rw [collect_cons_lt _ _ _ _ _ _ _ hc, ht2, ht1, List.append_assoc]

/-- Below the cap, the source loop appends exactly the passing items of the
remaining sources in enumeration order, truncated to the room left. -/
theorem collect_take (cfg : Config) (net : Network) (tr : Translator) (an : Analyzer)
    (ss : List (String × String)) :
    ∀ coll, coll.length < cfg.max_articles →
    collectFromSources cfg net tr an coll ss =
      coll ++ (ss.flatMap (passingOf cfg net tr an)).take (cfg.max_articles - coll.length) := by
  induction ss with
  | nil => intro coll _; simp [collectFromSources]
  | cons s rest ih =>
    intro coll hlt
    have hpt := processItems_take cfg tr an (fetch_google_news_rss net s.1 s.2) coll hlt
    have hPassing : passingOf cfg net tr an s =
        (fetch_google_news_rss net s.1 s.2).filterMap (processItem cfg tr an) := rfl
    rw [← hPassing] at hpt
    rw [List.flatMap_cons]
    by_cases hc : cfg.max_articles ≤ (processItems cfg tr an coll (fetch_google_news_rss net s.1 s.2)).length
    · have hlen : cfg.max_articles - coll.length ≤ (passingOf cfg net tr an s).length := by
        rw [hpt] at hc
        simp only [List.length_append, List.length_take] at hc
        omega
      rw [collect_cons_cap _ _ _ _ _ _ _ hc, hpt,
        List.take_append_of_le_length hlen]
    · have hplen : (passingOf cfg net tr an s).length < cfg.max_articles - coll.length := by
        rw [hpt] at hc
        simp only [List.length_append, List.length_take] at hc
        omega
      have hPall : (passingOf cfg net tr an s).take (cfg.max_articles - coll.length) =
          passingOf cfg net tr an s :=
        List.take_of_length_le (Nat.le_of_lt hplen)
      have hlen' : (processItems cfg tr an coll (fetch_google_news_rss net s.1 s.2)).length =
          coll.length + (passingOf cfg net tr an s).length := by
        rw [hpt, hPall]
        simp
      have hlt' : (processItems cfg tr an coll (fetch_google_news_rss net s.1 s.2)).length <
          cfg.max_articles := by omega
      have harith : cfg.max_articles - (coll.length + (passingOf cfg net tr an s).length) =
          (cfg.max_articles - coll.length) - (passingOf cfg net tr an s).length := by omega
      rw [collect_cons_lt _ _ _ _ _ _ _ hc, ih _ hlt', hpt, hPall,
        List.take_append_eq_append_take, hPall, List.length_append, harith,
        List.append_assoc]

/-- With a positive cap, the collected list right before deduplication is
exactly the first max_articles passing items in enumeration order. -/
theorem preDedup_take (cfg : Config) (net : Network) (tr : Translator) (an : Analyzer)
    (hpos : 1 ≤ cfg.max_articles) :
    preDedup cfg net tr an = (allPassing cfg net tr an).take cfg.max_articles := by
  have := collect_take cfg net tr an (sourcesOf cfg) [] (by simpa using hpos)
  simpa [preDedup, allPassing] using this

/-- With a positive cap, the traced run and collectFromSources agree. -/
theorem collectTrace_fst (cfg : Config) (net : Network) (tr : Translator) (an : Analyzer)
    (ss : List (String × String)) :
    ∀ coll, (collectTrace cfg net tr an coll ss).1 = collectFromSources cfg net tr an coll ss := by
  induction ss with
  | nil => intro coll; simp [collectTrace, collectFromSources]
  | cons s rest ih =>
    intro coll
    by_cases hc : cfg.max_articles ≤ (processItems cfg tr an coll (fetch_google_news_rss net s.1 s.2)).length
    · rw [collectTrace_cons_cap _ _ _ _ _ _ _ hc, collect_cons_cap _ _ _ _ _ _ _ hc]
    · rw [collectTrace_cons_lt _ _ _ _ _ _ _ hc, collect_cons_lt _ _ _ _ _ _ _ hc]
      exact ih _

/-- The sources actually fetched are always an initial segment of the
enumeration order: once the loop stops, no later source is contacted. -/
theorem collectTrace_initialSeg (cfg : Config) (net : Network) (tr : Translator) (an : Analyzer)
    (ss : List (String × String)) :
    ∀ coll, ∃ k, (collectTrace cfg net tr an coll ss).2 = ss.take k := by
  induction ss with
  | nil => intro coll; exact ⟨0, by simp [collectTrace]⟩
  | cons s rest ih =>
    intro coll
    by_cases hc : cfg.max_articles ≤ (processItems cfg tr an coll (fetch_google_news_rss net s.1 s.2)).length
    · exact ⟨1, by rw [collectTrace_cons_cap _ _ _ _ _ _ _ hc]; simp⟩
    · obtain ⟨k, hk⟩ := ih (processItems cfg tr an coll (fetch_google_news_rss net s.1 s.2))
      exact ⟨k + 1, by rw [collectTrace_cons_lt _ _ _ _ _ _ _ hc, List.take_succ_cons, hk]⟩

/-! Helper lemmas about deduplication. -/

/-- The deduplicated list is a sublist of the input: dedupe_articles keeps
input order and never adds items. -/
theorem dedupeGo_sublist (h : String → String) (l : List Article) :
    ∀ seen, (dedupeGo h seen l).Sublist l := by
  induction l with
  | nil => intro seen; simp [dedupeGo]
  | cons a rest ih =>
    intro seen
    by_cases hm : h (keySrc a) ∈ seen
    · rw [dedupeGo, if_pos hm]
      exact (ih seen).cons a
    · rw [dedupeGo, if_neg hm]
      exact (ih _).cons₂ a

/-- Deduplication is idempotent. -/
theorem dedupeGo_idem (h : String → String) (l : List Article) :
    ∀ seen, dedupeGo h seen (dedupeGo h seen l) = dedupeGo h seen l := by
  induction l with
  | nil => intro seen; simp [dedupeGo]
  | cons a rest ih =>
    intro seen
    by_cases hm : h (keySrc a) ∈ seen
    · rw [dedupeGo, if_pos hm, ih seen]
    · rw [dedupeGo, if_neg hm, dedupeGo, if_neg hm, ih _]

/-- If no key of the list was seen before and no two items of the list
collide, deduplication keeps everything. -/
theorem dedupeGo_of_pairwise (h : String → String) (l : List Article)
    (hp : l.Pairwise (fun a b => h (keySrc a) ≠ h (keySrc b))) :
    ∀ seen, (∀ a ∈ l, h (keySrc a) ∉ seen) → dedupeGo h seen l = l := by
  induction l with
  | nil => intro seen _; simp [dedupeGo]
  | cons a rest ih =>
    intro seen hseen
    have hm : h (keySrc a) ∉ seen := hseen a (List.mem_cons_self a rest)
    rw [dedupeGo, if_neg hm]
    have hp' := (List.pairwise_cons.mp hp).2
    have hhead := (List.pairwise_cons.mp hp).1
    rw [ih hp' (h (keySrc a) :: seen) ?_]
    intro b hb
    simp only [List.mem_cons]
    push_neg
    exact ⟨fun he => hhead b hb he.symm, hseen b (List.mem_cons_of_mem a hb)⟩

/-- Once a key is in the seen set it stays there, so an item whose key was
already seen is dropped wherever it occurs later. -/
theorem dedupeGo_seen_drop (h : String → String) (b : Article) (l3 : List Article) :
    ∀ (l2 : List Article) (seen : List String), h (keySrc b) ∈ seen →
    dedupeGo h seen (l2 ++ b :: l3) = dedupeGo h seen (l2 ++ l3) := by
  intro l2
  induction l2 with
  | nil =>
    intro seen hmem
    rw [List.nil_append, List.nil_append, dedupeGo, if_pos hmem]
  | cons c rest ih =>
    intro seen hmem
    by_cases hm : h (keySrc c) ∈ seen
    · rw [List.cons_append, dedupeGo, if_pos hm, List.cons_append, dedupeGo, if_pos hm,
        ih seen hmem]
    · rw [List.cons_append, dedupeGo, if_neg hm, List.cons_append, dedupeGo, if_neg hm,
        ih _ (List.mem_cons_of_mem _ hmem)]

/-- A later item whose key collides with an earlier item contributes
nothing: deduplicating with it present or absent gives the same output. -/
theorem dedupeGo_drop_later (h : String → String) (a b : Article)
    (hk : h (keySrc b) = h (keySrc a)) (l2 l3 : List Article) :
    ∀ (l1 : List Article) (seen : List String),
    dedupeGo h seen (l1 ++ a :: (l2 ++ b :: l3)) = dedupeGo h seen (l1 ++ a :: (l2 ++ l3)) := by
  intro l1
  induction l1 with
  | nil =>
    intro seen
    by_cases hm : h (keySrc a) ∈ seen
    · rw [List.nil_append, List.nil_append, dedupeGo, if_pos hm, dedupeGo, if_pos hm,
        dedupeGo_seen_drop h b l3 l2 seen (hk ▸ hm)]
    · rw [List.nil_append, List.nil_append, dedupeGo, if_neg hm, dedupeGo, if_neg hm,
        dedupeGo_seen_drop h b l3 l2 _ (by rw [hk]; exact List.mem_cons_self _ _)]
  | cons c rest ih =>
    intro seen
    by_cases hm : h (keySrc c) ∈ seen
    · rw [List.cons_append, dedupeGo, if_pos hm, List.cons_append, dedupeGo, if_pos hm, ih seen]
    · rw [List.cons_append, dedupeGo, if_neg hm, List.cons_append, dedupeGo, if_neg hm, ih _]

/-! Helper lemmas about the per-item decision. -/

/-- An item whose title and cleaned description are both empty is skipped:
the continue of source line 310 fires before translation and scoring. -/
theorem processItem_empty (cfg : Config) (tr : Translator) (an : Analyzer) (it : RawItem)
    (ht : it.title = "") (hd : clean_html_summary it.description = "") :
    processItem cfg tr an it = none := by
  simp only [processItem, ht, hd]
  simp

/-- For an item that reaches the scoring step, being kept is equivalent to
the compound score reaching the threshold, and the kept article carries the
fields built on source lines 318-331. -/
theorem processItem_some_iff (cfg : Config) (tr : Translator) (an : Analyzer) (it : RawItem)
    (hne : ¬ (it.title = "" ∧ clean_html_summary it.description = "")) :
    (processItem cfg tr an it ≠ none ↔ cfg.min_compound ≤ itemScore cfg tr an it) := by
  rw [processItem]
  simp only [hne, if_false]
  by_cases hs : score_sentiment an (translate_to_en_safe tr
      (strTake (it.title ++ " " ++ clean_html_summary it.description) 2000)) < cfg.min_compound
  · have : ¬ cfg.min_compound ≤ itemScore cfg tr an it := by
      rw [itemScore]
      exact not_le.mpr hs
    simp [hs, this]
  · have : cfg.min_compound ≤ itemScore cfg tr an it := by
      rw [itemScore]
      exact not_lt.mp hs
    simp [hs, this]

/-- The shape of a kept article: its fields in terms of the raw item and
the collaborators, source lines 318-331. -/
theorem processItem_some_fields (cfg : Config) (tr : Translator) (an : Analyzer)
    (it : RawItem) (a : Article) (hp : processItem cfg tr an it = some a) :
    a.title = it.title ∧
    a.description = clean_html_summary it.description ∧
    a.summary = strTake (clean_html_summary it.description) cfg.summary_max_chars ∧
    a.link = it.link ∧
    a.pubDate = it.pubDate ∧
    a.score = itemScore cfg tr an it ∧
    a.title_he = translate_text tr it.title "he" ∧
    a.summary_he = (if a.summary = "" then "" else translate_text tr a.summary "he") ∧
    ¬ (it.title = "" ∧ clean_html_summary it.description = "") := by
  rw [processItem] at hp
  by_cases hne : it.title = "" ∧ clean_html_summary it.description = ""
  · simp [hne] at hp
  · simp only [hne, if_false] at hp
    by_cases hs : score_sentiment an (translate_to_en_safe tr
        (strTake (it.title ++ " " ++ clean_html_summary it.description) 2000)) < cfg.min_compound
    · simp [hs] at hp
    · simp only [hs, if_false, Option.some.injEq] at hp
      subst hp
      refine ⟨rfl, rfl, rfl, rfl, rfl, rfl, rfl, rfl, hne⟩

/-- Every article in the output of the item loop was already collected or
was built by processItem from one of the fetched items. -/
theorem processItems_mem (cfg : Config) (tr : Translator) (an : Analyzer)
    (items : List RawItem) :
    ∀ coll a, a ∈ processItems cfg tr an coll items →
      a ∈ coll ∨ ∃ it ∈ items, processItem cfg tr an it = some a := by
  induction items with
  | nil =>
    intro coll a ha
    exact Or.inl ha
  | cons it rest ih =>
    intro coll a ha
    cases hpi : processItem cfg tr an it with
    | none =>
      rw [processItems_cons_none _ _ _ _ _ _ hpi] at ha
      rcases ih coll a ha with h1 | ⟨it', hit', hp'⟩
      · exact Or.inl h1
      · exact Or.inr ⟨it', List.mem_cons_of_mem _ hit', hp'⟩
    | some b =>
      by_cases hc : cfg.max_articles ≤ (coll ++ [b]).length
      · rw [processItems_cons_cap _ _ _ _ _ _ _ hpi hc] at ha
        rcases List.mem_append.mp ha with h1 | h2
        · exact Or.inl h1
        · simp only [List.mem_singleton] at h2
          exact Or.inr ⟨it, List.mem_cons_self _ _, h2 ▸ hpi⟩
      · rw [processItems_cons_lt _ _ _ _ _ _ _ hpi hc] at ha
        rcases ih _ a ha with h1 | ⟨it', hit', hp'⟩
        · rcases List.mem_append.mp h1 with h2 | h3
          · exact Or.inl h2
          · simp only [List.mem_singleton] at h3
            exact Or.inr ⟨it, List.mem_cons_self _ _, h3 ▸ hpi⟩
        · exact Or.inr ⟨it', List.mem_cons_of_mem _ hit', hp'⟩

/-- Every article in the output of the source loop was already collected or
was built by processItem from an item fetched from one of the sources. -/
theorem collect_mem (cfg : Config) (net : Network) (tr : Translator) (an : Analyzer)
    (ss : List (String × String)) :
    ∀ coll a, a ∈ collectFromSources cfg net tr an coll ss →
      a ∈ coll ∨ ∃ s ∈ ss, ∃ it ∈ fetch_google_news_rss net s.1 s.2,
        processItem cfg tr an it = some a := by
  induction ss with
  | nil =>
    intro coll a ha
    exact Or.inl ha
  | cons s rest ih =>
    intro coll a ha
    by_cases hc : cfg.max_articles ≤ (processItems cfg tr an coll (fetch_google_news_rss net s.1 s.2)).length
    · rw [collect_cons_cap _ _ _ _ _ _ _ hc] at ha
      rcases processItems_mem cfg tr an _ coll a ha with h1 | ⟨it, hit, hp⟩
      · exact Or.inl h1
      · exact Or.inr ⟨s, List.mem_cons_self _ _, it, hit, hp⟩
    · rw [collect_cons_lt _ _ _ _ _ _ _ hc] at ha
      rcases ih _ a ha with h1 | ⟨s', hs', it, hit, hp⟩
      · rcases processItems_mem cfg tr an _ coll a h1 with h2 | ⟨it, hit, hp⟩
        · exact Or.inl h2
        · exact Or.inr ⟨s, List.mem_cons_self _ _, it, hit, hp⟩
      · exact Or.inr ⟨s', List.mem_cons_of_mem _ hs', it, hit, hp⟩

/-- Every article of the final CollectedSet was built by processItem from
an item fetched from one of the enumerated sources. -/
theorem run_mem (cfg : Config) (net : Network) (tr : Translator) (an : Analyzer)
    (h : String → String) (a : Article) (ha : a ∈ run cfg net tr an h) :
    ∃ s ∈ sourcesOf cfg, ∃ it ∈ fetch_google_news_rss net s.1 s.2,
      processItem cfg tr an it = some a := by
  have h1 : a ∈ preDedup cfg net tr an :=
    (dedupeGo_sublist h (preDedup cfg net tr an) []).subset ha
  rcases collect_mem cfg net tr an (sourcesOf cfg) [] a h1 with h2 | h3
  · simp at h2
  · exact h3

/-! Helper lemmas about the whitespace collapse of the normalizer. -/

/-- Appending a string on the right is injective on the left argument. -/
theorem strAppendCancelRight {s t u : String} (hh : s ++ u = t ++ u) : s = t := by
  have hd := congrArg String.data hh
  rw [String.data_append, String.data_append] at hd
  exact stringDataEq (List.append_cancel_right hd)

/-- Appending a string on the left is injective on the right argument. -/
theorem strAppendCancelLeft {s t u : String} (hh : u ++ s = u ++ t) : s = t := by
  have hd := congrArg String.data hh
  rw [String.data_append, String.data_append] at hd
  exact stringDataEq (List.append_cancel_left hd)

/-- Every word produced by the splitter is nonempty and free of whitespace
characters. -/
theorem wordsAux_spec (cs : List Char) :
    ∀ acc, (∀ c ∈ acc, isSpaceChar c = false) →
    ∀ w ∈ wordsAux acc cs, w ≠ [] ∧ ∀ c ∈ w, isSpaceChar c = false := by
  induction cs with
  | nil =>
    intro acc hacc w hw
    by_cases ha : acc = []
    · simp [wordsAux, ha] at hw
    · simp only [wordsAux, ha, if_false, List.mem_singleton] at hw
      subst hw
      constructor
      · simpa using ha
      · intro c hc
        exact hacc c (List.mem_reverse.mp hc)
  | cons c rest ih =>
    intro acc hacc w hw
    cases hsp : isSpaceChar c with
    | true =>
      by_cases ha : acc = []
      · rw [wordsAux, hsp] at hw
        simp only [if_true, ha, if_pos rfl] at hw
        exact ih [] (by simp) w hw
      · rw [wordsAux, hsp] at hw
        simp only [if_true, ha, if_false] at hw
        rcases List.mem_cons.mp hw with h1 | h2
        · subst h1
          constructor
          · simpa using ha
          · intro d hd
            exact hacc d (List.mem_reverse.mp hd)
        · exact ih [] (by simp) w h2
    | false =>
      rw [wordsAux, hsp] at hw
      simp only [Bool.false_eq_true, if_false] at hw
      refine ih (c :: acc) ?_ w hw
      intro d hd
      rcases List.mem_cons.mp hd with h1 | h2
      · exact h1 ▸ hsp
      · exact hacc d h2

/-- A list without whitespace characters never has two adjacent whitespace
characters. -/
theorem chainOfNoSpace (l : List Char) (hl : ∀ c ∈ l, isSpaceChar c = false) :
    List.Chain' (fun c d => isSpaceChar c = false ∨ isSpaceChar d = false) l := by
  induction l with
  | nil => simp
  | cons x t ih =>
    rw [List.chain'_cons']
    constructor
    · intro y _
      exact Or.inl (hl x (List.mem_cons_self _ _))
    · exact ih fun c hc => hl c (List.mem_cons_of_mem _ hc)

/-- Joining nonempty words yields a nonempty list. -/
theorem joinWords_ne_nil (ws : List (List Char)) (hne : ws ≠ [])
    (hws : ∀ w ∈ ws, w ≠ []) : joinWords ws ≠ [] := by
  cases ws with
  | nil => exact absurd rfl hne
  | cons w t =>
    cases t with
    | nil => exact hws w (List.mem_cons_self _ _)
    | cons w2 t2 =>
      show w ++ ' ' :: joinWords (w2 :: t2) ≠ []
      intro hcontra
      rcases List.append_eq_nil.mp hcontra with ⟨h1, _⟩
      exact hws w (List.mem_cons_self _ _) h1

/-- The joined word list starts and ends with a non-whitespace character,
never puts two whitespace characters side by side, and the only whitespace
character it contains is the single space separator. -/
theorem joinWords_props (ws : List (List Char))
    (hws : ∀ w ∈ ws, w ≠ [] ∧ ∀ c ∈ w, isSpaceChar c = false) :
    (∀ c, (joinWords ws).head? = some c → isSpaceChar c = false) ∧
    (∀ c, (joinWords ws).getLast? = some c → isSpaceChar c = false) ∧
    List.Chain' (fun c d => isSpaceChar c = false ∨ isSpaceChar d = false) (joinWords ws) ∧
    (∀ c ∈ joinWords ws, isSpaceChar c = true → c = ' ') := by
  induction ws with
  | nil =>
    refine ⟨?_, ?_, ?_, ?_⟩ <;> simp [joinWords]
  | cons w t ih =>
    cases t with
    | nil =>
      have hw := hws w (List.mem_cons_self _ _)
      rw [joinWords]
      refine ⟨?_, ?_, ?_, ?_⟩
      · intro c hc
        exact hw.2 c (List.mem_of_mem_head? hc)
      · intro c hc
        exact hw.2 c (List.mem_of_mem_getLast? hc)
      · exact chainOfNoSpace w hw.2
      · intro c hc htrue
        exact absurd (hw.2 c hc) (by simp [htrue])
    | cons w2 t2 =>
      have hw := hws w (List.mem_cons_self _ _)
      have hws' : ∀ v ∈ w2 :: t2, v ≠ [] ∧ ∀ c ∈ v, isSpaceChar c = false :=
        fun v hv => hws v (List.mem_cons_of_mem _ hv)
      have ihJ := ih hws'
      have hJne : joinWords (w2 :: t2) ≠ [] :=
        joinWords_ne_nil _ (by simp) (fun v hv => (hws' v hv).1)
      have hjw : joinWords (w :: w2 :: t2) = w ++ ' ' :: joinWords (w2 :: t2) := rfl
      rw [hjw]
      refine ⟨?_, ?_, ?_, ?_⟩
      · intro c hc
        obtain ⟨x, w', hx⟩ := List.exists_cons_of_ne_nil hw.1
        subst hx
        rw [List.cons_append, List.head?_cons, Option.some.injEq] at hc
        exact hw.2 c (hc ▸ List.mem_cons_self _ _)
      · intro c hc
        rw [List.getLast?_append_of_ne_nil _ (by simp)] at hc
        obtain ⟨y, J', hy⟩ := List.exists_cons_of_ne_nil hJne
        rw [hy, List.getLast?_cons_cons] at hc
        apply ihJ.2.1 c
        rw [hy]
        exact hc
      · rw [List.chain'_append]
        refine ⟨chainOfNoSpace w hw.2, ?_, ?_⟩
        · rw [List.chain'_cons']
          constructor
          · intro y hy
            exact Or.inr (ihJ.1 y hy)
          · exact ihJ.2.2.1
        · intro x hx y _
          exact Or.inl (hw.2 x (List.mem_of_mem_getLast? hx))
      · intro c hc htrue
        rcases List.mem_append.mp hc with h1 | h2
        · exact absurd (hw.2 c h1) (by simp [htrue])
        · rcases List.mem_cons.mp h2 with h3 | h4
          · exact h3
          · exact ihJ.2.2.2 c h4 htrue

/-- The output of clean_html_summary: no leading whitespace, no trailing
whitespace, no two adjacent whitespace characters, and any whitespace it
contains is a single plain space. -/
theorem clean_html_summary_props (s : String) :
    (∀ c, (clean_html_summary s).data.head? = some c → isSpaceChar c = false) ∧
    (∀ c, (clean_html_summary s).data.getLast? = some c → isSpaceChar c = false) ∧
    List.Chain' (fun c d => isSpaceChar c = false ∨ isSpaceChar d = false)
      (clean_html_summary s).data ∧
    (∀ c ∈ (clean_html_summary s).data, isSpaceChar c = true → c = ' ') := by
  by_cases hs : s = ""
  · rw [clean_html_summary, if_pos hs]
    refine ⟨?_, ?_, ?_, ?_⟩ <;> simp
  · rw [clean_html_summary, if_neg hs]
    exact joinWords_props _ (wordsAux_spec _ [] (by simp))

/-- An analyzer failure yields a score of exactly zero. -/
theorem score_sentiment_none (an : Analyzer) (text : String) (h : an text = none) :
    score_sentiment an text = 0 := by
  rw [score_sentiment]
  by_cases ht : text = ""
  · rw [if_pos ht]
  · rw [if_neg ht, h]

/-- The empty text scores exactly zero without consulting the analyzer. -/
theorem score_sentiment_empty (an : Analyzer) : score_sentiment an "" = 0 := by
  rw [score_sentiment, if_pos rfl]

/-! The claims. -/

/-- Claim C1, counterexample: with max_articles equal to two and a universe
of sources producing three items that pass the sentiment threshold, of
which the first two are identical, the final CollectedSet after
deduplication has one item, not two: the cap is applied before
deduplication, so duplicates among the first N passing items shrink the
final set below N. -/
theorem claim_C1_counterexample :
    cfgC.max_articles = 2 ∧
    (allPassing cfgC netDup trFail anOne).length = 3 ∧
    (run cfgC netDup trFail anOne idHash).length ≠ 2 ∧
    run cfgC netDup trFail anOne idHash = [artA] := by
  refine ⟨rfl, by decide, by decide, by decide⟩

/-- Claim C1, amended: for every run with max_articles equal to a positive N
and sources producing more than N passing items, the collected list at the
cap is exactly the first N passing items in source-enumeration order, and
the final CollectedSet is the deduplication of those N items, so it has
exactly N items provided the first N passing items have pairwise distinct
deduplication keys; items from later sources are excluded once the cap is
hit, regardless of their scores. -/
theorem claim_C1_amended (cfg : Config) (net : Network) (tr : Translator) (an : Analyzer)
    (h : String → String) (N : Nat) (hN : cfg.max_articles = N) (hpos : 1 ≤ N)
    (hM : N < (allPassing cfg net tr an).length)
    (hdist : ((allPassing cfg net tr an).take N).Pairwise
      (fun a b => h (keySrc a) ≠ h (keySrc b))) :
    preDedup cfg net tr an = (allPassing cfg net tr an).take N ∧
    run cfg net tr an h = (allPassing cfg net tr an).take N ∧
    (run cfg net tr an h).length = N := by
  subst hN
  have hpre := preDedup_take cfg net tr an hpos
  have hrun : run cfg net tr an h = (allPassing cfg net tr an).take cfg.max_articles := by
    rw [run, hpre, dedupe_articles]
    exact dedupeGo_of_pairwise h _ hdist [] (by simp)
  refine ⟨hpre, hrun, ?_⟩
  rw [hrun, List.length_take]
  exact Nat.min_eq_left (Nat.le_of_lt hM)

/-- Witness for the amended claim C1 at a concrete run: cap one, two
passing items, final set is exactly the first passing item. -/
theorem claim_C1_amended_witness :
    preDedup cfgW netAB trFail anOne = (allPassing cfgW netAB trFail anOne).take 1 ∧
    run cfgW netAB trFail anOne idHash = (allPassing cfgW netAB trFail anOne).take 1 ∧
    (run cfgW netAB trFail anOne idHash).length = 1 :=
  claim_C1_amended cfgW netAB trFail anOne idHash 1 rfl (by decide) (by decide) (by decide)

/-- Claim C2: with a positive configured maximum (the repository configures
25), the collected list never exceeds the maximum at any point of the run:
the loops only append, the list before deduplication is bounded by the
maximum, and so is the final set; and the moment the maximum is reached the
enumeration stops entirely: the source at which the cap is reached is the
last one fetched, and the sources actually fetched are always an initial
segment of the enumeration order. -/
theorem claim_C2 (cfg : Config) (net : Network) (tr : Translator) (an : Analyzer)
    (hpos : 1 ≤ cfg.max_articles) :
    (preDedup cfg net tr an).length ≤ cfg.max_articles ∧
    (∀ h, (run cfg net tr an h).length ≤ cfg.max_articles) ∧
    (∀ coll items, ∃ t, processItems cfg tr an coll items = coll ++ t) ∧
    (∀ coll ss, ∃ t, collectFromSources cfg net tr an coll ss = coll ++ t) ∧
    (∀ coll s rest,
      cfg.max_articles ≤ (processItems cfg tr an coll (fetch_google_news_rss net s.1 s.2)).length →
      collectFromSources cfg net tr an coll (s :: rest) =
        processItems cfg tr an coll (fetch_google_news_rss net s.1 s.2) ∧
      (collectTrace cfg net tr an coll (s :: rest)).2 = [s]) ∧
    (∀ coll ss, ∃ k, (collectTrace cfg net tr an coll ss).2 = ss.take k) ∧
    (∀ coll ss, (collectTrace cfg net tr an coll ss).1 = collectFromSources cfg net tr an coll ss) := by
  have hbound : (preDedup cfg net tr an).length ≤ cfg.max_articles := by
    rw [preDedup_take cfg net tr an hpos, List.length_take]
    exact Nat.min_le_left _ _
  refine ⟨hbound, ?_, ?_, ?_, ?_, ?_, ?_⟩
  · intro h
    exact Nat.le_trans (dedupeGo_sublist h (preDedup cfg net tr an) []).length_le hbound
  · exact fun coll items => processItems_append cfg tr an items coll
  · exact fun coll ss => collect_append cfg net tr an ss coll
  · intro coll s rest hc
    exact ⟨collect_cons_cap cfg net tr an coll s rest hc,
      by rw [collectTrace_cons_cap cfg net tr an coll s rest hc]⟩
  · exact fun coll ss => collectTrace_initialSeg cfg net tr an ss coll
  · exact fun coll ss => collectTrace_fst cfg net tr an ss coll

/-- Witness for claim C2 at the repository configuration: with the
collected list already holding 25 articles, processing one more source
stops the enumeration at that source. -/
theorem claim_C2_witness :
    collectFromSources CONFIG netFail trFail anOne (List.replicate 25 artA) [("q", "en"), ("r", "en")] =
      processItems CONFIG trFail anOne (List.replicate 25 artA)
        (fetch_google_news_rss netFail "q" "en") ∧
    (collectTrace CONFIG netFail trFail anOne (List.replicate 25 artA) [("q", "en"), ("r", "en")]).2 =
      [("q", "en")] := by
  have H := claim_C2 CONFIG netFail trFail anOne (by decide)
  exact H.2.2.2.2.1 (List.replicate 25 artA) ("q", "en") [("r", "en")] (by decide)

/-- Claim C3: under a collision-free (injective) hash boundary, for every
pair of collected items with identical link and title only the first
encountered in enumeration order appears in the final CollectedSet (the
later duplicate contributes nothing); items are duplicates exactly when
their hashed keys collide, so a key-collision-free list is kept whole; and
a change in either the link alone or the title alone changes the hashed
deduplication key, avoiding the collision. -/
theorem claim_C3 (h : String → String) (hinj : Function.Injective h) :
    (∀ (l1 l2 l3 : List Article) (a b : Article), a.link = b.link → a.title = b.title →
      dedupe_articles h (l1 ++ a :: (l2 ++ b :: l3)) =
        dedupe_articles h (l1 ++ a :: (l2 ++ l3))) ∧
    (∀ l : List Article, l.Pairwise (fun a b => h (keySrc a) ≠ h (keySrc b)) →
      dedupe_articles h l = l) ∧
    (∀ a b : Article, a.link = b.link → a.title ≠ b.title →
      h (keySrc a) ≠ h (keySrc b)) ∧
    (∀ a b : Article, a.title = b.title → a.link ≠ b.link →
      h (keySrc a) ≠ h (keySrc b)) := by
  refine ⟨?_, ?_, ?_, ?_⟩
  · intro l1 l2 l3 a b hlink htitle
    have hk : h (keySrc b) = h (keySrc a) := by
      rw [keySrc, keySrc, hlink, htitle]
    exact dedupeGo_drop_later h a b hk l2 l3 l1 []
  · intro l hp
    exact dedupeGo_of_pairwise h l hp [] (by simp)
  · intro a b hlink htitle hcontra
    apply htitle
    have hke : keySrc a = keySrc b := hinj hcontra
    rw [keySrc, keySrc, hlink] at hke
    exact strAppendCancelLeft hke
  · intro a b htitle hlink hcontra
    apply hlink
    have hke : keySrc a = keySrc b := hinj hcontra
    rw [keySrc, keySrc, htitle] at hke
    exact strAppendCancelRight hke

/-- Witness for claim C3 at a concrete hash boundary and concrete articles:
the later duplicate of artA is dropped, the collision-free pair is kept
whole, and changing the title alone changes the key. -/
theorem claim_C3_witness :
    dedupe_articles idHash [artA, artB, artA] = dedupe_articles idHash [artA, artB] ∧
    dedupe_articles idHash [artA, artB] = [artA, artB] ∧
    idHash (keySrc artA) ≠ idHash (keySrc artAt) := by
  have H := claim_C3 idHash (fun a b hh => hh)
  refine ⟨?_, ?_, ?_⟩
  · have := H.1 [] [artB] [] artA artA rfl rfl
    simpa using this
  · exact H.2.1 [artA, artB] (by decide)
  · exact H.2.2.1 artA artAt rfl (by decide)

/-- Claim C4: an item that reaches the scoring step is kept if and only if
its compound score is at least the configured minimum threshold, and with a
positive cap the collected list before deduplication is a prefix of the
passing items in source-enumeration order: passing items are never
reordered by score. -/
theorem claim_C4 :
    (∀ (cfg : Config) (tr : Translator) (an : Analyzer) (it : RawItem),
      ¬ (it.title = "" ∧ clean_html_summary it.description = "") →
      (processItem cfg tr an it ≠ none ↔ cfg.min_compound ≤ itemScore cfg tr an it)) ∧
    (∀ (cfg : Config) (net : Network) (tr : Translator) (an : Analyzer),
      1 ≤ cfg.max_articles →
      preDedup cfg net tr an = (allPassing cfg net tr an).take cfg.max_articles) := by
  exact ⟨fun cfg tr an it hne => processItem_some_iff cfg tr an it hne,
    fun cfg net tr an hpos => preDedup_take cfg net tr an hpos⟩

/-- Witness for claim C4 at a concrete item and run. -/
theorem claim_C4_witness :
    ((processItem cfgW trFail anOne (parseXmlItem "en" xmlA) ≠ none) ↔
      cfgW.min_compound ≤ itemScore cfgW trFail anOne (parseXmlItem "en" xmlA)) ∧
    preDedup cfgW netAB trFail anOne = (allPassing cfgW netAB trFail anOne).take cfgW.max_articles :=
  ⟨claim_C4.1 cfgW trFail anOne (parseXmlItem "en" xmlA) (by decide),
    claim_C4.2 cfgW netAB trFail anOne (by decide)⟩

/-- Claim C5: translate_text never raises (it is a total function of the
embedding); whenever the underlying provider fails it returns the original
input text unchanged, hence a nonempty input never becomes empty; and in
the pipeline a kept article whose title or summary translation failed
carries the original untranslated text in the corresponding field. -/
theorem claim_C5 :
    (∀ (tr : Translator) (text target : String), tr text target = none →
      translate_text tr text target = text) ∧
    (∀ (tr : Translator) (text target : String), text ≠ "" → tr text target = none →
      translate_text tr text target ≠ "") ∧
    (∀ (cfg : Config) (tr : Translator) (an : Analyzer) (it : RawItem) (a : Article),
      processItem cfg tr an it = some a →
      (tr a.title "he" = none → a.title_he = a.title) ∧
      (tr a.summary "he" = none → a.summary_he = a.summary)) := by
  have hbase : ∀ (tr : Translator) (text target : String), tr text target = none →
      translate_text tr text target = text := by
    intro tr text target hfail
    rw [translate_text]
    by_cases ht : text = ""
    · rw [if_pos ht, ht]
    · rw [if_neg ht, hfail]
  refine ⟨hbase, ?_, ?_⟩
  · intro tr text target hne hfail
    rw [hbase tr text target hfail]
    exact hne
  · intro cfg tr an it a hp
    obtain ⟨hta, _, hsum, _, _, _, hthe, hshe, _⟩ := processItem_some_fields cfg tr an it a hp
    constructor
    · intro hfail
      rw [hthe, hta]
      exact hbase tr it.title "he" (hta ▸ hfail)
    · intro hfail
      rw [hshe]
      by_cases hs : a.summary = ""
      · rw [if_pos hs, hs]
      · rw [if_neg hs]
        exact hbase tr a.summary "he" hfail

/-- Witness for claim C5 at a concrete failing provider and a concrete kept
article. -/
theorem claim_C5_witness :
    translate_text trFail "Hello" "he" = "Hello" ∧
    translate_text trFail "Hello" "he" ≠ "" ∧
    artA.title_he = artA.title := by
  refine ⟨claim_C5.1 trFail "Hello" "he" rfl,
    claim_C5.2.1 trFail "Hello" "he" (by decide) rfl, ?_⟩
  exact (claim_C5.2.2 cfgW trFail anOne (parseXmlItem "en" xmlA) artA (by decide)).1 rfl

/-- Claim C6: the fetch boundary never raises: any failure of the request
or the parse makes the source contribute the empty item list, a successful
fetch yields the parsed items with absent fields defaulted, and a source
that contributed nothing leaves the collected list unchanged while the run
continues with the next source. -/
theorem claim_C6 :
    (∀ (net : Network) (q lang : String), net q lang = none →
      fetch_google_news_rss net q lang = []) ∧
    (∀ (net : Network) (q lang : String) (xs : List XmlItem), net q lang = some xs →
      fetch_google_news_rss net q lang = xs.map (parseXmlItem lang)) ∧
    (∀ (cfg : Config) (net : Network) (tr : Translator) (an : Analyzer)
      (coll : List Article) (s : String × String) (rest : List (String × String)),
      fetch_google_news_rss net s.1 s.2 = [] →
      coll.length < cfg.max_articles →
      collectFromSources cfg net tr an coll (s :: rest) =
        collectFromSources cfg net tr an coll rest) := by
  refine ⟨?_, ?_, ?_⟩
  · intro net q lang hfail
    rw [fetch_google_news_rss, hfail]
  · intro net q lang xs hok
    rw [fetch_google_news_rss, hok]
  · intro cfg net tr an coll s rest hfetch hlt
    have h0 : processItems cfg tr an coll (fetch_google_news_rss net s.1 s.2) = coll := by
      rw [hfetch]
      rfl
    have hc : ¬ cfg.max_articles ≤
        (processItems cfg tr an coll (fetch_google_news_rss net s.1 s.2)).length := by
      rw [h0]
      omega
    rw [collect_cons_lt cfg net tr an coll s rest hc, h0]

/-- Witness for claim C6 at a network boundary that always fails. -/
theorem claim_C6_witness :
    fetch_google_news_rss netFail "rare animal birth" "en" = [] ∧
    collectFromSources cfgW netFail trFail anOne [] [("q", "en"), ("r", "en")] =
      collectFromSources cfgW netFail trFail anOne [] [("r", "en")] := by
  refine ⟨claim_C6.1 netFail "rare animal birth" "en" rfl, ?_⟩
  exact claim_C6.2.2 cfgW netFail trFail anOne [] ("q", "en") [("r", "en")] (by decide) (by decide)

/-- Claim C7: the normalizer never raises (it is a total function of the
embedding); empty input yields the empty string; the quoted example strips
its markup and collapses its whitespace; and in general the output has no
leading or trailing whitespace, never two adjacent whitespace characters,
and the only whitespace character it contains is a single plain space. -/
theorem claim_C7 :
    clean_html_summary "" = "" ∧
    clean_html_summary "<p>Hello   world</p>" = "Hello world" ∧
    (∀ (s : String) (c : Char), (clean_html_summary s).data.head? = some c →
      isSpaceChar c = false) ∧
    (∀ (s : String) (c : Char), (clean_html_summary s).data.getLast? = some c →
      isSpaceChar c = false) ∧
    (∀ s : String, List.Chain' (fun c d => isSpaceChar c = false ∨ isSpaceChar d = false)
      (clean_html_summary s).data) ∧
    (∀ (s : String) (c : Char), c ∈ (clean_html_summary s).data → isSpaceChar c = true →
      c = ' ') := by
  refine ⟨rfl, by decide, ?_, ?_, ?_, ?_⟩
  · exact fun s c hc => (clean_html_summary_props s).1 c hc
  · exact fun s c hc => (clean_html_summary_props s).2.1 c hc
  · exact fun s => (clean_html_summary_props s).2.2.1
  · exact fun s c hc ht => (clean_html_summary_props s).2.2.2 c hc ht

/-- Witness for claim C7: the head of the normalized example is the
non-whitespace character H. -/
theorem claim_C7_witness : isSpaceChar 'H' = false :=
  claim_C7.2.2.1 "<p>Hello   world</p>" 'H' (by decide)

/-- Claim C8: the scorer never raises (it is a total function of the
embedding); the empty string scores exactly zero; an analyzer failure is
recovered locally as a score of exactly zero; and in the pipeline an item
whose scoring fails is dropped by the threshold gate whenever the
configured threshold is positive. -/
theorem claim_C8 :
    (∀ an : Analyzer, score_sentiment an "" = 0) ∧
    (∀ (an : Analyzer) (text : String), an text = none → score_sentiment an text = 0) ∧
    (∀ (cfg : Config) (tr : Translator) (an : Analyzer) (it : RawItem),
      0 < cfg.min_compound →
      an (translate_to_en_safe tr
        (strTake (it.title ++ " " ++ clean_html_summary it.description) 2000)) = none →
      processItem cfg tr an it = none) := by
  refine ⟨score_sentiment_empty, score_sentiment_none, ?_⟩
  intro cfg tr an it hpos han
  by_cases hne : it.title = "" ∧ clean_html_summary it.description = ""
  · exact processItem_empty cfg tr an it hne.1 hne.2
  · rw [processItem]
    simp only [hne, if_false]
    rw [score_sentiment_none an _ han, if_pos hpos]

/-- Witness for claim C8 at a concrete item and an analyzer that always
fails: the item is dropped. -/
theorem claim_C8_witness :
    score_sentiment anOne "" = 0 ∧
    score_sentiment anNone "Good news" = 0 ∧
    processItem cfgW trFail anNone (parseXmlItem "en" xmlA) = none := by
  refine ⟨claim_C8.1 anOne, claim_C8.2.1 anNone "Good news" rfl, ?_⟩
  exact claim_C8.2.2 cfgW trFail anNone (parseXmlItem "en" xmlA) (by decide) rfl

/-- Claim C9: a fetched item whose title and normalized description are
both empty is skipped (the loop body yields none before any translation or
scoring), and consequently every article of the final CollectedSet has a
nonempty title or a nonempty cleaned description. -/
theorem claim_C9 :
    (∀ (cfg : Config) (tr : Translator) (an : Analyzer) (it : RawItem),
      it.title = "" → clean_html_summary it.description = "" →
      processItem cfg tr an it = none) ∧
    (∀ (cfg : Config) (net : Network) (tr : Translator) (an : Analyzer)
      (h : String → String) (a : Article), a ∈ run cfg net tr an h →
      a.title ≠ "" ∨ a.description ≠ "") := by
  refine ⟨processItem_empty, ?_⟩
  intro cfg net tr an h a ha
  obtain ⟨s, _, it, _, hp⟩ := run_mem cfg net tr an h a ha
  obtain ⟨hta, hda, _, _, _, _, _, _, hne⟩ := processItem_some_fields cfg tr an it a hp
  by_cases ht : a.title = ""
  · refine Or.inr ?_
    rw [hda]
    intro hd
    exact hne ⟨hta ▸ ht, hd⟩
  · exact Or.inl ht

/-- Witness for claim C9: the all-empty item is skipped, and a concrete
member of a concrete final CollectedSet has a nonempty field. -/
theorem claim_C9_witness :
    processItem cfgW trFail anOne itEmpty = none ∧
    (artA.title ≠ "" ∨ artA.description ≠ "") := by
  refine ⟨claim_C9.1 cfgW trFail anOne itEmpty rfl (by decide), ?_⟩
  exact claim_C9.2 cfgW netAB trFail anOne idHash artA (by decide)

/-- Claim C10: deduplication is order-preserving and idempotent: its output
is a sublist of its input (same relative order, nothing added), and
applying it to its own output changes nothing. -/
theorem claim_C10 (h : String → String) (articles : List Article) :
    (dedupe_articles h articles).Sublist articles ∧
    dedupe_articles h (dedupe_articles h articles) = dedupe_articles h articles :=
  ⟨dedupeGo_sublist h articles [], dedupeGo_idem h articles []⟩

end GNA
